import Mathlib

/-!
Verification of the run-preserving placeholder substitution/removal engine of
the IOMaker repository (src/generate_io.py and src/app.py).

Texts are modelled as `List Char`; a docx run is modelled as its mutable text
field plus an opaque attribute word standing for everything the engine never
touches (fonts, embedded images, ...).  Python string slicing `s[:i]` / `s[i:]`
is `List.take i` / `List.drop i` (both clamp, exactly as Python slices do).
Fallible code paths (Python exceptions such as `IndexError`) are modelled with
`Option`: `none` means the Python code raises.
-/

namespace IOMaker

/-- Convenience conversion from a Lean string literal to the character-list
representation used throughout. -/
def chs (s : String) : List Char := s.data

/-- A docx run: the engine reads and writes only `text`; `attr` stands for the
run's styling and non-text content, which the engine must never touch. -/
structure Run where
  text : List Char
  attr : Nat
deriving DecidableEq, Repr

/-- Default run used to model Python list indexing; all indices produced by
`locate` are in range whenever the run list is non-empty, so this default is
never actually selected on reachable paths. -/
def dfltRun : Run := ⟨[], 0⟩

/-- A paragraph is an ordered sequence of runs (python-docx `paragraph.runs`). -/
structure Para where
  runs : List Run
deriving DecidableEq, Repr

/-- A replacement span `(start, end, repl)` in the concatenated paragraph text,
as produced by `_collect_token_spans` in src/generate_io.py. -/
abbrev Span := Nat × Nat × List Char

/-- Concatenated text of a list of run texts (`"".join(texts)`). -/
def joinTexts (texts : List (List Char)) : List Char := texts.flatten

/-- Concatenated text of a paragraph's runs
(`full = "".join(r.text for r in runs)`). -/
def joinText (runs : List Run) : List Char := (runs.map Run.text).flatten

/-- Total character count of the run texts; equals the last entry `cum[-1]` of
the cumulative boundary table built in `_apply_spans_to_paragraph_preserve_runs`
(src/generate_io.py lines 143-145). -/
def totalLen (texts : List (List Char)) : Nat := (texts.map List.length).sum

/-- Entry `cum[j]` of the cumulative boundary table of
`_apply_spans_to_paragraph_preserve_runs`: the total length of the first `j`
run texts. -/
def cumAt (texts : List (List Char)) (j : Nat) : Nat := totalLen (texts.take j)

/-- The scanning loop of `locate` (src/generate_io.py lines 150-152):
`for i in range(len(texts)): if cum[i] <= pos <= cum[i+1]: return i, pos-cum[i]`.
The argument `c` is `cum[i]` (maintained incrementally as
`cum[i+1] = cum[i] + len(texts[i])`); `none` means the loop fell through. -/
def locateLoop (pos : Nat) : Nat → Nat → List (List Char) → Option (Nat × Nat)
  | _, _, [] => none
  | i, c, t :: ts =>
    if c ≤ pos ∧ pos ≤ c + t.length then some (i, pos - c)
    else locateLoop pos (i + 1) (c + t.length) ts

/-- The nested function `locate` of `_apply_spans_to_paragraph_preserve_runs`
(src/generate_io.py lines 147-154).  If the loop falls through, the Python
code executes the fallback `return len(texts) - 1, len(texts[-1])`; on an empty
run list `texts[-1]` raises `IndexError`, modelled by `none`. -/
def locate (texts : List (List Char)) (pos : Nat) : Option (Nat × Nat) :=
  match locateLoop pos 0 0 texts with
  | some ro => some ro
  | none =>
    match texts.getLast? with
    | some last => some (texts.length - 1, last.length)
    | none => none

/-- Assignment `runs[i].text = t` : only the text field of run `i` is written.
Out-of-range `i` leaves the list unchanged (all indices fed to it by the engine
are in range, see the lemmas below). -/
def setRunText (runs : List Run) (i : Nat) (t : List Char) : List Run :=
  runs.set i ⟨t, (runs.getD i dfltRun).attr⟩

/-- The middle-run clearing loop `for j in range(a, b): runs[j].text = ""`
(src/generate_io.py lines 168-169): empties the text of every run with index
in `[a, b)`, leaving attributes alone. -/
def clearRange : List Run → Nat → Nat → List Run
  | [], _, _ => []
  | r :: rs, a, b =>
    (if a = 0 ∧ 0 < b then ⟨[], r.attr⟩ else r) :: clearRange rs (a - 1) (b - 1)

/-- The span-application loop of `_apply_spans_to_paragraph_preserve_runs`
(src/generate_io.py lines 157-171).  `texts` is the frozen snapshot
`[r.text for r in runs]` from which `cum`/`locate` were built; `cur` is the
current (mutated) run list.  For each `(start, end, repl)`:
if both ends land in the same run, that run's current text is rewritten as
`text[:so] + repl + text[eo:]`; otherwise the end run keeps its tail
`text[eo:]`, strictly interior runs are emptied, and the start run receives
`text[:so] + repl`.  `none` models the `IndexError` raised by `locate`'s
fallback when the paragraph has no runs. -/
def applySpansLoop (texts : List (List Char)) :
    List Run → List Span → Option (List Run)
  | cur, [] => some cur
  | cur, (s, e, repl) :: rest =>
    match locate texts s, locate texts e with
    | some (si, so), some (ei, eo) =>
      if si = ei then
        let t := (cur.getD si dfltRun).text
        applySpansLoop texts (setRunText cur si (t.take so ++ repl ++ t.drop eo)) rest
      else
        let tail := ((cur.getD ei dfltRun).text).drop eo
        let cur1 := setRunText cur ei tail
        let cur2 := clearRange cur1 (si + 1) ei
        applySpansLoop texts
          (setRunText cur2 si (((cur2.getD si dfltRun).text).take so ++ repl)) rest
    | _, _ => none

/-- `_apply_spans_to_paragraph_preserve_runs(paragraph, spans)`
(src/generate_io.py lines 135-171): returns immediately when `spans` is empty,
otherwise snapshots the run texts and runs the application loop. -/
def apply_spans_to_paragraph_preserve_runs (runs : List Run) (spans : List Span) :
    Option (List Run) :=
  if spans = [] then some runs
  else applySpansLoop (runs.map Run.text) runs spans

/-- Python `text.find(ph, start) == i` succeeds exactly when the occurrence
fits inside `text` and the characters at `i` equal `ph`. -/
def occursAt (text ph : List Char) (i : Nat) : Bool :=
  decide (i + ph.length ≤ text.length) && ((text.drop i).take ph.length == ph)

/-- Python `text.find(ph, start)`: the least index `i ≥ start` at which `ph`
occurs in `text`, or `none` for the sentinel `-1`. -/
def findFrom (text ph : List Char) (start : Nat) : Option Nat :=
  ((List.range (text.length + 1)).filter
    (fun i => decide (start ≤ i) && occursAt text ph i)).head?

/-- The per-key scanning loop of `_collect_token_spans`
(src/generate_io.py lines 124-130): repeatedly find the next occurrence of the
key from `start`, record the span, and continue from past the match.  The
first argument is recursion fuel: every found occurrence satisfies
`start ≤ idx` and `idx + len(ph) ≤ len(text)`, so for a non-empty key the scan
position strictly increases and `text.length + 1 - start` iterations always
suffice (lemmas `collectOccsAux_fuel` and the claim-C10 theorem below); the
fuel therefore never runs out on the paths the engine exercises. -/
def collectOccsAux (text ph : List Char) : Nat → Nat → List (Nat × Nat)
  | 0, _ => []
  | n + 1, start =>
    match findFrom text ph start with
    | none => []
    | some idx => (idx, idx + ph.length) :: collectOccsAux text ph n (idx + ph.length)

/-- All occurrence spans of key `ph` in `text` scanning from `start`,
left to right, non-overlapping. -/
def collectOccs (text ph : List Char) (start : Nat) : List (Nat × Nat) :=
  collectOccsAux text ph (text.length + 1 - start) start

/-- The span accumulation of `_collect_token_spans` before sorting
(src/generate_io.py lines 120-130): iterate over the replacement map in
insertion order, skip empty keys (`if not ph: continue`), and append one span
`(idx, idx + len(ph), val)` per occurrence. -/
def spansOf (text : List Char) (repls : List (List Char × List Char)) : List Span :=
  repls.foldl
    (fun acc pv =>
      acc ++ (if pv.1 = [] then []
              else (collectOccs text pv.1 0).map (fun se => (se.1, se.2, pv.2))))
    []

/-- Stable descending insertion by start offset: the new element goes in front
of the first element whose start does not exceed its own, so elements with
equal starts keep their original relative order. -/
def insertSpanDesc (x : Span) : List Span → List Span
  | [] => [x]
  | y :: ys => if y.1 ≤ x.1 then x :: y :: ys else y :: insertSpanDesc x ys

/-- Python `spans.sort(key=lambda x: x[0], reverse=True)`: a stable sort by
start offset, descending.  Python's sort is stable, and a stable descending
sort has a unique result, here computed by insertion. -/
def sortSpansDesc (l : List Span) : List Span := l.foldr insertSpanDesc []

/-- `_collect_token_spans(text, replacements)` (src/generate_io.py lines
118-133): collect every occurrence span of every key, then sort by start
offset descending. -/
def collect_token_spans (text : List Char) (repls : List (List Char × List Char)) :
    List Span :=
  sortSpansDesc (spansOf text repls)

/-- `replace_in_paragraph_preserve(paragraph, replacements)`
(src/generate_io.py lines 173-181): no-op on a paragraph without runs or with
empty concatenated text, otherwise locate spans and apply them.  The `none`
branch of the applier is unreachable here because the run list is non-empty
(lemma `applySpansLoop_ne_none`); it is mapped to the untouched paragraph. -/
def replace_in_paragraph_preserve (repls : List (List Char × List Char))
    (p : Para) : Para :=
  if p.runs = [] then p
  else if joinText p.runs = [] then p
  else
    match apply_spans_to_paragraph_preserve_runs p.runs
        (collect_token_spans (joinText p.runs) repls) with
    | some out => ⟨out⟩
    | none => p

/-! ### Characterization of `locate` on in-range positions -/

/-- Index of the run containing position `pos`: the first `i` with
`pos ≤ cum[i+1]` (the Python loop returns the earliest matching run, so a
boundary position maps to the earlier run). -/
def locIdx : List (List Char) → Nat → Nat
  | [], _ => 0
  | t :: ts, pos => if pos ≤ t.length then 0 else locIdx ts (pos - t.length) + 1

/-- Intra-run offset paired with `locIdx`. -/
def locOff : List (List Char) → Nat → Nat
  | [], pos => pos
  | t :: ts, pos => if pos ≤ t.length then pos else locOff ts (pos - t.length)

theorem totalLen_nil : totalLen [] = 0 := rfl

theorem totalLen_cons (t : List Char) (ts : List (List Char)) :
    totalLen (t :: ts) = t.length + totalLen ts := by
  simp [totalLen]

theorem locateLoop_eq (ts : List (List Char)) (pos c i : Nat)
    (h : pos ≤ totalLen ts) (hne : ts ≠ []) :
    locateLoop (c + pos) i c ts = some (i + locIdx ts pos, locOff ts pos) := by
  induction ts generalizing pos c i with
  | nil => exact absurd rfl hne
  | cons t ts ih =>
    rw [totalLen_cons] at h
    by_cases hp : pos ≤ t.length
    · simp [locateLoop, locIdx, locOff, hp, Nat.le_add_right, Nat.add_le_add_left hp c]
    · have hlt : t.length < pos := Nat.lt_of_not_le hp
      have hcond : ¬ (c ≤ c + pos ∧ c + pos ≤ c + t.length) := by
        rintro ⟨-, h2⟩
        exact hp (Nat.le_of_add_le_add_left h2)
      have hts : ts ≠ [] := by
        rintro rfl
        simp [totalLen] at h
        omega
      have harg : c + pos = (c + t.length) + (pos - t.length) := by omega
      have := ih (pos - t.length) (c + t.length) (i + 1) (by omega) hts
      simp only [locateLoop, if_neg hcond, locIdx, locOff, if_neg hp]
      rw [harg, this]
      simp [Nat.add_assoc, Nat.add_comm 1]

theorem locate_eq (texts : List (List Char)) (pos : Nat)
    (h : pos ≤ totalLen texts) (hne : texts ≠ []) :
    locate texts pos = some (locIdx texts pos, locOff texts pos) := by
  have := locateLoop_eq texts pos 0 0 h hne
  simp only [Nat.zero_add] at this
  simp [locate, this]

theorem locIdx_lt_length (ts : List (List Char)) (pos : Nat)
    (hne : ts ≠ []) (h : pos ≤ totalLen ts) : locIdx ts pos < ts.length := by
  induction ts generalizing pos with
  | nil => exact absurd rfl hne
  | cons t ts ih =>
    rw [totalLen_cons] at h
    by_cases hp : pos ≤ t.length
    · simp [locIdx, hp]
    · have hts : ts ≠ [] := by
        rintro rfl
        simp [totalLen] at h
        omega
      have := ih (pos - t.length) hts (by omega)
      simp only [locIdx, if_neg hp, List.length_cons]
      omega

theorem locIdx_mono (ts : List (List Char)) (s e : Nat) (h : s ≤ e) :
    locIdx ts s ≤ locIdx ts e := by
  induction ts generalizing s e with
  | nil => simp [locIdx]
  | cons t ts ih =>
    by_cases hs : s ≤ t.length
    · simp only [locIdx, if_pos hs]
      omega
    · have he : ¬ e ≤ t.length := by omega
      simp only [locIdx, if_neg hs, if_neg he]
      have := ih (s - t.length) (e - t.length) (by omega)
      omega

/-- When the requested position exceeds the total text length, the Python scan
loop falls through. -/
theorem locateLoop_none (ts : List (List Char)) (pos c i : Nat)
    (h : c + totalLen ts < pos) : locateLoop pos i c ts = none := by
  induction ts generalizing c i with
  | nil => rfl
  | cons t ts ih =>
    rw [totalLen_cons] at h
    have hcond : ¬ (c ≤ pos ∧ pos ≤ c + t.length) := by
      rintro ⟨-, h2⟩
      omega
    simp only [locateLoop, if_neg hcond]
    exact ih (c + t.length) (i + 1) (by omega)

theorem getLast?_of_ne_nil {α : Type} (l : List α) (d : α) (h : l ≠ []) :
    l.getLast? = some (l.getLastD d) := by
  cases l with
  | nil => exact absurd rfl h
  | cons a as => simp [List.getLastD_eq_getLast?, List.getLast?_cons]

/-! ### Structural recharacterization of a single span application -/

/-- Effect of deleting the first `e` characters of the concatenation of `rs`
while preserving the run list: runs wholly inside the deleted range are
emptied, the run containing the cut keeps its tail.  This is the structural
description of what the cross-run branch of the applier does to the runs after
the start run. -/
def dropRec : List Run → Nat → List Run
  | [], _ => []
  | r :: rs, e =>
    if e ≤ r.text.length then ⟨r.text.drop e, r.attr⟩ :: rs
    else ⟨[], r.attr⟩ :: dropRec rs (e - r.text.length)

/-- Structural description of one span application `(s, e, repl)`: in the run
containing both ends the range is spliced out and `repl` inserted; when the
span crosses runs, the start run keeps its head plus `repl` and the rest of
the span is deleted via `dropRec`. -/
def applySpanRec (repl : List Char) : List Run → Nat → Nat → List Run
  | [], _, _ => []
  | r :: rs, s, e =>
    if e ≤ r.text.length then
      ⟨r.text.take s ++ repl ++ r.text.drop e, r.attr⟩ :: rs
    else if s ≤ r.text.length then
      ⟨r.text.take s ++ repl, r.attr⟩ :: dropRec rs (e - r.text.length)
    else
      r :: applySpanRec repl rs (s - r.text.length) (e - r.text.length)

theorem setRunText_cons_zero (r : Run) (rs : List Run) (t : List Char) :
    setRunText (r :: rs) 0 t = ⟨t, r.attr⟩ :: rs := by
  simp [setRunText, List.getD]

theorem setRunText_cons_succ (r : Run) (rs : List Run) (i : Nat) (t : List Char) :
    setRunText (r :: rs) (i + 1) t = r :: setRunText rs i t := by
  simp [setRunText, List.set_cons_succ, List.getD_cons_succ]

theorem clearRange_b_zero (l : List Run) (a : Nat) : clearRange l a 0 = l := by
  induction l generalizing a with
  | nil => rfl
  | cons r rs ih => simp [clearRange, ih]

theorem clearRange_cons_succ (r : Run) (rs : List Run) (a b : Nat) :
    clearRange (r :: rs) (a + 1) (b + 1) = r :: clearRange rs a b := by
  simp [clearRange]

theorem clearRange_cons_zero_succ (r : Run) (rs : List Run) (b : Nat) :
    clearRange (r :: rs) 0 (b + 1) = ⟨[], r.attr⟩ :: clearRange rs 0 b := by
  simp [clearRange]

/-- The end-run update followed by the middle-clearing loop, on the runs after
the start run, computes exactly `dropRec`. -/
theorem clear_set_eq_dropRec (rs : List Run) (e : Nat)
    (h1 : 1 ≤ e) (h2 : e ≤ totalLen (rs.map Run.text)) :
    clearRange
      (setRunText rs (locIdx (rs.map Run.text) e)
        (((rs.getD (locIdx (rs.map Run.text) e) dfltRun).text).drop
          (locOff (rs.map Run.text) e)))
      0 (locIdx (rs.map Run.text) e) = dropRec rs e := by
  induction rs generalizing e with
  | nil => simp [totalLen] at h2; omega
  | cons r rs ih =>
    simp only [List.map_cons, totalLen_cons] at h2
    by_cases hp : e ≤ r.text.length
    · simp only [List.map_cons, locIdx, locOff, if_pos hp, List.getD_cons_zero]
      rw [setRunText_cons_zero, clearRange_b_zero, dropRec, if_pos hp]
    · simp only [List.map_cons, locIdx, locOff, if_neg hp, List.getD_cons_succ]
      rw [setRunText_cons_succ, clearRange_cons_zero_succ, dropRec, if_neg hp,
        ih (e - r.text.length) (by omega) (by omega)]

theorem applySpansLoop_single (runs : List Run) (s e : Nat) (repl : List Char)
    (hne : runs ≠ []) (hse : s ≤ e) (het : e ≤ totalLen (runs.map Run.text)) :
    applySpansLoop (runs.map Run.text) runs [(s, e, repl)] =
      some (applySpanRec repl runs s e) := by
  induction runs generalizing s e with
  | nil => exact absurd rfl hne
  | cons r rs ih =>
    have hmne : (r :: rs).map Run.text ≠ [] := by simp
    have hs_le : s ≤ totalLen ((r :: rs).map Run.text) := Nat.le_trans hse het
    rw [applySpansLoop, locate_eq _ s hs_le hmne, locate_eq _ e het hmne]
    simp only [List.map_cons, totalLen_cons] at het ⊢
    by_cases hpe : e ≤ r.text.length
    · have hps : s ≤ r.text.length := Nat.le_trans hse hpe
      simp only [locIdx, locOff, if_pos hpe, if_pos hps, List.getD_cons_zero,
        reduceIte]
      rw [setRunText_cons_zero, applySpansLoop, applySpanRec, if_pos hpe]
    · by_cases hps : s ≤ r.text.length
      · simp only [locIdx, locOff, if_neg hpe, if_pos hps]
        have hne01 : (0 : Nat) ≠ locIdx (rs.map Run.text) (e - r.text.length) + 1 := by
          omega
        rw [if_neg hne01]
        simp only [List.getD_cons_succ, List.getD_cons_zero]
        rw [setRunText_cons_succ, clearRange_cons_succ,
          clear_set_eq_dropRec rs (e - r.text.length) (by omega) (by omega),
          setRunText_cons_zero]
        rw [applySpansLoop, applySpanRec, if_neg hpe, if_pos hps]
        simp [List.getD_cons_zero]
      · simp only [locIdx, locOff, if_neg hpe, if_neg hps]
        have hrs : rs ≠ [] := by
          rintro rfl
          simp [totalLen] at het
          omega
        have ihx := ih (s - r.text.length) (e - r.text.length) hrs (by omega) (by omega)
        rw [applySpansLoop,
          locate_eq _ (s - r.text.length) (by omega : s - r.text.length ≤ totalLen (rs.map Run.text)) (by simp [hrs]),
          locate_eq _ (e - r.text.length) (by omega) (by simp [hrs])] at ihx
        dsimp only [] at ihx
        rw [applySpanRec, if_neg hpe, if_neg hps]
        by_cases hsame : locIdx (rs.map Run.text) (s - r.text.length) =
            locIdx (rs.map Run.text) (e - r.text.length)
        · have hsame1 : locIdx (rs.map Run.text) (s - r.text.length) + 1 =
              locIdx (rs.map Run.text) (e - r.text.length) + 1 := by omega
          rw [if_pos hsame1]
          rw [if_pos hsame, applySpansLoop] at ihx
          simp only [List.getD_cons_succ]
          rw [setRunText_cons_succ, applySpansLoop]
          rw [Option.some.injEq] at ihx ⊢
          rw [ihx]
        · have hsame1 : locIdx (rs.map Run.text) (s - r.text.length) + 1 ≠
              locIdx (rs.map Run.text) (e - r.text.length) + 1 := by omega
          rw [if_neg hsame1]
          rw [if_neg hsame, applySpansLoop] at ihx
          simp only [List.getD_cons_succ]
          rw [setRunText_cons_succ, clearRange_cons_succ, setRunText_cons_succ,
            applySpansLoop]
          simp only [List.getD_cons_succ]
          rw [Option.some.injEq] at ihx ⊢
          rw [ihx]


/-! ### Text-level effect of a single span -/

theorem joinText_nil : joinText [] = [] := rfl

theorem joinText_cons (r : Run) (rs : List Run) :
    joinText (r :: rs) = r.text ++ joinText rs := by
  simp [joinText]

theorem totalLen_eq_length (runs : List Run) :
    totalLen (runs.map Run.text) = (joinText runs).length := by
  induction runs with
  | nil => rfl
  | cons r rs ih => simp [joinText_cons, totalLen_cons, ih]

theorem dropRec_flatten (rs : List Run) (e : Nat) :
    joinText (dropRec rs e) = (joinText rs).drop e := by
  induction rs generalizing e with
  | nil => simp [joinText, dropRec]
  | cons r rs ih =>
    rw [dropRec]
    by_cases hp : e ≤ r.text.length
    · rw [if_pos hp, joinText_cons, joinText_cons, List.drop_append_eq_append_drop,
        Nat.sub_eq_zero_of_le hp, List.drop_zero]
    · rw [if_neg hp, joinText_cons, joinText_cons, ih, List.drop_append_eq_append_drop]
      have hd : r.text.drop e = [] := List.drop_eq_nil_of_le (by omega)
      rw [hd, List.nil_append]

theorem applySpanRec_flatten (runs : List Run) (s e : Nat) (repl : List Char)
    (hne : runs ≠ []) (hse : s ≤ e) (het : e ≤ totalLen (runs.map Run.text)) :
    joinText (applySpanRec repl runs s e) =
      (joinText runs).take s ++ repl ++ (joinText runs).drop e := by
  induction runs generalizing s e with
  | nil => exact absurd rfl hne
  | cons r rs ih =>
    simp only [List.map_cons, totalLen_cons] at het
    rw [applySpanRec]
    by_cases hpe : e ≤ r.text.length
    · have hps : s ≤ r.text.length := Nat.le_trans hse hpe
      rw [if_pos hpe, joinText_cons, joinText_cons,
        List.take_append_eq_append_take, List.drop_append_eq_append_drop,
        Nat.sub_eq_zero_of_le hps, Nat.sub_eq_zero_of_le hpe,
        List.take_zero, List.drop_zero, List.append_nil]
      simp [List.append_assoc]
    · by_cases hps : s ≤ r.text.length
      · rw [if_neg hpe, if_pos hps, joinText_cons, joinText_cons, dropRec_flatten,
          List.take_append_eq_append_take, List.drop_append_eq_append_drop,
          Nat.sub_eq_zero_of_le hps, List.take_zero, List.append_nil]
        have hd : r.text.drop e = [] := List.drop_eq_nil_of_le (by omega)
        rw [hd, List.nil_append]
      · have hrs : rs ≠ [] := by
          rintro rfl
          simp [totalLen] at het
          omega
        rw [if_neg hpe, if_neg hps, joinText_cons, joinText_cons,
          ih (s - r.text.length) (e - r.text.length) hrs (by omega) (by omega),
          List.take_append_eq_append_take, List.drop_append_eq_append_drop]
        have hts : r.text.take s = r.text := List.take_of_length_le (by omega)
        have htd : r.text.drop e = [] := List.drop_eq_nil_of_le (by omega)
        rw [hts, htd, List.nil_append]
        simp [List.append_assoc]

/-! ### Run-level effect of a cross-run span -/

theorem dropRec_getD_at (rs : List Run) (e : Nat)
    (h1 : 1 ≤ e) (h2 : e ≤ totalLen (rs.map Run.text)) :
    ((dropRec rs e).getD (locIdx (rs.map Run.text) e) dfltRun).text =
      ((rs.getD (locIdx (rs.map Run.text) e) dfltRun).text).drop
        (locOff (rs.map Run.text) e) := by
  induction rs generalizing e with
  | nil => simp [totalLen] at h2; omega
  | cons r rs ih =>
    simp only [List.map_cons, totalLen_cons] at h2
    by_cases hp : e ≤ r.text.length
    · simp only [List.map_cons, locIdx, locOff, if_pos hp, List.getD_cons_zero,
        dropRec]
    · simp only [List.map_cons, locIdx, locOff, if_neg hp, List.getD_cons_succ,
        dropRec]
      exact ih (e - r.text.length) (by omega) (by omega)

theorem dropRec_getD_lt (rs : List Run) (e : Nat) (j : Nat)
    (hj : j < locIdx (rs.map Run.text) e) :
    ((dropRec rs e).getD j dfltRun).text = [] := by
  induction rs generalizing e j with
  | nil => simp [locIdx] at hj
  | cons r rs ih =>
    by_cases hp : e ≤ r.text.length
    · simp [List.map_cons, locIdx, if_pos hp] at hj
    · simp only [List.map_cons, locIdx, if_neg hp] at hj
      rw [dropRec, if_neg hp]
      cases j with
      | zero => simp [List.getD_cons_zero, dfltRun]
      | succ j =>
        rw [List.getD_cons_succ]
        exact ih (e - r.text.length) j (by omega)

theorem applySpanRec_cross (runs : List Run) (s e : Nat) (repl : List Char)
    (hne : runs ≠ []) (hse : s ≤ e) (het : e ≤ totalLen (runs.map Run.text))
    (hx : locIdx (runs.map Run.text) s ≠ locIdx (runs.map Run.text) e) :
    ((applySpanRec repl runs s e).getD (locIdx (runs.map Run.text) s) dfltRun).text
        = ((runs.getD (locIdx (runs.map Run.text) s) dfltRun).text).take
            (locOff (runs.map Run.text) s) ++ repl
    ∧ ((applySpanRec repl runs s e).getD (locIdx (runs.map Run.text) e) dfltRun).text
        = ((runs.getD (locIdx (runs.map Run.text) e) dfltRun).text).drop
            (locOff (runs.map Run.text) e)
    ∧ ∀ j, locIdx (runs.map Run.text) s < j → j < locIdx (runs.map Run.text) e →
        ((applySpanRec repl runs s e).getD j dfltRun).text = [] := by
  induction runs generalizing s e with
  | nil => exact absurd rfl hne
  | cons r rs ih =>
    simp only [List.map_cons, totalLen_cons] at het
    by_cases hpe : e ≤ r.text.length
    · have hps : s ≤ r.text.length := Nat.le_trans hse hpe
      simp only [List.map_cons, locIdx, if_pos hpe, if_pos hps] at hx
      exact absurd rfl hx
    · by_cases hps : s ≤ r.text.length
      · simp only [List.map_cons, locIdx, locOff, if_neg hpe, if_pos hps]
        rw [applySpanRec, if_neg hpe, if_pos hps]
        refine ⟨by simp [List.getD_cons_zero], ?_, ?_⟩
        · rw [List.getD_cons_succ, List.getD_cons_succ]
          exact dropRec_getD_at rs (e - r.text.length) (by omega) (by omega)
        · intro j hj1 hj2
          cases j with
          | zero => omega
          | succ j =>
            rw [List.getD_cons_succ]
            exact dropRec_getD_lt rs (e - r.text.length) j (by omega)
      · have hrs : rs ≠ [] := by
          rintro rfl
          simp [totalLen] at het
          omega
        simp only [List.map_cons, locIdx, locOff, if_neg hpe, if_neg hps] at hx ⊢
        rw [applySpanRec, if_neg hpe, if_neg hps]
        have ihx := ih (s - r.text.length) (e - r.text.length) hrs (by omega)
          (by omega) (by omega)
        simp only [List.getD_cons_succ]
        refine ⟨ihx.1, ihx.2.1, ?_⟩
        intro j hj1 hj2
        cases j with
        | zero => omega
        | succ j =>
          rw [List.getD_cons_succ]
          exact ihx.2.2 j (by omega) (by omega)


/-! ### Claim C1 -/

/-- Claim C1: for every paragraph and every replacement span `(start, end, repl)`
applied by the Span Applier (spans produced by the Locator always satisfy
`start ≤ end ≤ total length`, and the Applier is only reached with a non-empty
run list), the new concatenated run text is the original text before `start`,
then `repl`, then the original text from `end` on; and when the span crosses
runs, the start run receives its own head plus the replacement, the end run
keeps only its tail after the span, and strictly interior runs become empty. -/
theorem C1_span_applier_correct (runs : List Run) (s e : Nat)
    (repl : List Char) (hne : runs ≠ []) (hse : s ≤ e)
    (het : e ≤ totalLen (runs.map Run.text)) :
    ∃ out, apply_spans_to_paragraph_preserve_runs runs [(s, e, repl)] = some out ∧
      joinText out = (joinText runs).take s ++ repl ++ (joinText runs).drop e ∧
      ∀ si so ei eo, locate (runs.map Run.text) s = some (si, so) →
        locate (runs.map Run.text) e = some (ei, eo) → si ≠ ei →
        ((out.getD si dfltRun).text = ((runs.getD si dfltRun).text).take so ++ repl ∧
         (out.getD ei dfltRun).text = ((runs.getD ei dfltRun).text).drop eo ∧
         ∀ j, si < j → j < ei → (out.getD j dfltRun).text = []) := by
  refine ⟨applySpanRec repl runs s e, ?_, ?_, ?_⟩
  · rw [apply_spans_to_paragraph_preserve_runs, if_neg (by simp)]
    exact applySpansLoop_single runs s e repl hne hse het
  · exact applySpanRec_flatten runs s e repl hne hse het
  · intro si so ei eo hls hle hx
    have hmne : runs.map Run.text ≠ [] := by
      cases runs with
      | nil => exact absurd rfl hne
      | cons a l => simp
    rw [locate_eq _ s (Nat.le_trans hse het) hmne] at hls
    rw [locate_eq _ e het hmne] at hle
    rw [Option.some.injEq, Prod.mk.injEq] at hls hle
    obtain ⟨rfl, rfl⟩ := hls
    obtain ⟨rfl, rfl⟩ := hle
    exact applySpanRec_cross runs s e repl hne hse het hx

/-- Witness for C1 at the cross-run paragraph of spec property P3:
runs `["A \x7b\x7b", "x", "\x7d\x7d B"]`, span `(2, 9, "Z")`. -/
theorem C1_span_applier_correct_witness :
    ∃ out, apply_spans_to_paragraph_preserve_runs
        [⟨chs "A \x7b\x7b", 10⟩, ⟨chs "x", 11⟩, ⟨chs "\x7d\x7d B", 12⟩]
        [(2, 9, chs "Z")] = some out ∧
      joinText out =
        (joinText [⟨chs "A \x7b\x7b", 10⟩, ⟨chs "x", 11⟩, ⟨chs "\x7d\x7d B", 12⟩]).take 2
          ++ chs "Z" ++
          (joinText [⟨chs "A \x7b\x7b", 10⟩, ⟨chs "x", 11⟩, ⟨chs "\x7d\x7d B", 12⟩]).drop 9 ∧
      ∀ si so ei eo,
        locate ([⟨chs "A \x7b\x7b", 10⟩, ⟨chs "x", 11⟩, ⟨chs "\x7d\x7d B", 12⟩].map Run.text) 2
          = some (si, so) →
        locate ([⟨chs "A \x7b\x7b", 10⟩, ⟨chs "x", 11⟩, ⟨chs "\x7d\x7d B", 12⟩].map Run.text) 9
          = some (ei, eo) → si ≠ ei →
        ((([⟨chs "A \x7b\x7b", 10⟩, ⟨chs "x", 11⟩, ⟨chs "\x7d\x7d B", 12⟩] : List Run).getD si dfltRun).text.take so ++ chs "Z" = (out.getD si dfltRun).text ∧
         (out.getD ei dfltRun).text = (([⟨chs "A \x7b\x7b", 10⟩, ⟨chs "x", 11⟩, ⟨chs "\x7d\x7d B", 12⟩] : List Run).getD ei dfltRun).text.drop eo ∧
         ∀ j, si < j → j < ei → (out.getD j dfltRun).text = []) := by
  obtain ⟨out, h1, h2, h3⟩ := C1_span_applier_correct
    [⟨chs "A \x7b\x7b", 10⟩, ⟨chs "x", 11⟩, ⟨chs "\x7d\x7d B", 12⟩] 2 9 (chs "Z")
    (by decide) (by decide) (by decide)
  exact ⟨out, h1, h2, fun si so ei eo ha hb hc =>
    ⟨(h3 si so ei eo ha hb hc).1.symm, (h3 si so ei eo ha hb hc).2.1,
     (h3 si so ei eo ha hb hc).2.2⟩⟩


/-! ### Frame lemmas: which runs an application step may touch -/

theorem setRunText_length (l : List Run) (i : Nat) (t : List Char) :
    (setRunText l i t).length = l.length := by
  simp [setRunText]

theorem setRunText_map_attr (l : List Run) (i : Nat) (t : List Char) :
    (setRunText l i t).map Run.attr = l.map Run.attr := by
  induction l generalizing i with
  | nil => rfl
  | cons r rs ih =>
    cases i with
    | zero => rw [setRunText_cons_zero]; simp
    | succ i => rw [setRunText_cons_succ]; simp [ih]

theorem setRunText_getD_ne (l : List Run) (i j : Nat) (t : List Char)
    (h : i ≠ j) : (setRunText l i t).getD j dfltRun = l.getD j dfltRun := by
  rw [setRunText, List.getD_eq_getElem?_getD, List.getElem?_set_ne h,
    List.getD_eq_getElem?_getD]

theorem clearRange_length (l : List Run) (a b : Nat) :
    (clearRange l a b).length = l.length := by
  induction l generalizing a b with
  | nil => rfl
  | cons r rs ih => simp [clearRange, ih]

theorem clearRange_map_attr (l : List Run) (a b : Nat) :
    (clearRange l a b).map Run.attr = l.map Run.attr := by
  induction l generalizing a b with
  | nil => rfl
  | cons r rs ih =>
    rw [clearRange]
    by_cases h : a = 0 ∧ 0 < b
    · rw [if_pos h]; simp [ih]
    · rw [if_neg h]; simp [ih]

theorem clearRange_getD_outside (l : List Run) (a b j : Nat)
    (h : j < a ∨ b ≤ j) : (clearRange l a b).getD j dfltRun = l.getD j dfltRun := by
  induction l generalizing a b j with
  | nil => rfl
  | cons r rs ih =>
    rw [clearRange]
    cases j with
    | zero =>
      have hcond : ¬ (a = 0 ∧ 0 < b) := by omega
      rw [if_neg hcond]
      simp [List.getD_cons_zero]
    | succ j =>
      rw [List.getD_cons_succ, List.getD_cons_succ]
      exact ih (a - 1) (b - 1) j (by omega)

/-! ### Relating the cumulative boundary table to `locIdx` -/

theorem cumAt_zero (ts : List (List Char)) : cumAt ts 0 = 0 := rfl

theorem cumAt_nil (j : Nat) : cumAt [] j = 0 := by
  simp [cumAt, totalLen]

theorem cumAt_cons_succ (t : List Char) (ts : List (List Char)) (j : Nat) :
    cumAt (t :: ts) (j + 1) = t.length + cumAt ts j := by
  simp [cumAt, List.take_succ_cons, totalLen_cons]

/-- A run whose right boundary lies strictly before the span start is strictly
before the start run chosen by `locate`. -/
theorem lt_locIdx_of_cum_lt (ts : List (List Char)) (s j : Nat)
    (hs : s ≤ totalLen ts) (h : cumAt ts (j + 1) < s) : j < locIdx ts s := by
  induction ts generalizing s j with
  | nil =>
    rw [cumAt_nil] at h
    simp [totalLen] at hs
    omega
  | cons t ts ih =>
    rw [totalLen_cons] at hs
    rw [cumAt_cons_succ] at h
    by_cases hp : s ≤ t.length
    · omega
    · simp only [locIdx, if_neg hp]
      cases j with
      | zero => omega
      | succ j =>
        have := ih (s - t.length) j (by omega) (by omega)
        omega

/-- A run whose left boundary is at or past the span end is strictly after the
end run chosen by `locate`. -/
theorem locIdx_lt_of_le_cum (ts : List (List Char)) (e j : Nat)
    (h1 : 1 ≤ e) (h : e ≤ cumAt ts j) : locIdx ts e < j := by
  induction ts generalizing e j with
  | nil => rw [cumAt_nil] at h; omega
  | cons t ts ih =>
    cases j with
    | zero => rw [cumAt_zero] at h; omega
    | succ j =>
      rw [cumAt_cons_succ] at h
      by_cases hp : e ≤ t.length
      · simp [locIdx, if_pos hp]
      · simp only [locIdx, if_neg hp]
        have := ih (e - t.length) j (by omega) (by omega)
        omega

theorem locate_nil (pos : Nat) : locate [] pos = none := rfl


/-- Run-level frame property of the span-application loop: the output has the
same number of runs and the same attribute sequence, and any run strictly
before every span's located start run and strictly after every span's end run
is returned untouched (text and attribute).  The per-span side conditions
`s < e ≤ total` hold for every span the Locator produces. -/
theorem applySpansLoop_frame (texts : List (List Char)) (spans : List Span) :
    ∀ cur out : List Run,
      (∀ x ∈ spans, x.1 < x.2.1 ∧ x.2.1 ≤ totalLen texts) →
      applySpansLoop texts cur spans = some out →
      out.length = cur.length ∧ out.map Run.attr = cur.map Run.attr ∧
      ∀ j, (∀ x ∈ spans, cumAt texts (j + 1) < x.1 ∨ x.2.1 ≤ cumAt texts j) →
        out.getD j dfltRun = cur.getD j dfltRun := by
  induction spans with
  | nil =>
    intro cur out hv h
    rw [applySpansLoop, Option.some.injEq] at h
    subst h
    exact ⟨rfl, rfl, fun j hj => rfl⟩
  | cons x rest ih =>
    obtain ⟨s, e, repl⟩ := x
    intro cur out hv h
    by_cases hts : texts = []
    · subst hts
      rw [applySpansLoop] at h
      simp [locate_nil] at h
    · have hv0 := hv (s, e, repl) (by simp)
      have hse : s < e := hv0.1
      have het : e ≤ totalLen texts := hv0.2
      rw [applySpansLoop, locate_eq texts s (by omega) hts,
        locate_eq texts e het hts] at h
      dsimp only [] at h
      have hsiei : locIdx texts s ≤ locIdx texts e :=
        locIdx_mono texts s e (by omega)
      by_cases hsi : locIdx texts s = locIdx texts e
      · rw [if_pos hsi] at h
        obtain ⟨h1, h2, h3⟩ := ih _ out (fun x hx => hv x (by simp [hx])) h
        refine ⟨by rw [h1, setRunText_length], by rw [h2, setRunText_map_attr], ?_⟩
        intro j hj
        have hj0 := hj (s, e, repl) (by simp)
        have hjx : j < locIdx texts s ∨ locIdx texts e < j := by
          rcases hj0 with hlt | hge
          · exact Or.inl (lt_locIdx_of_cum_lt texts s j (by omega) hlt)
          · exact Or.inr (locIdx_lt_of_le_cum texts e j (by omega) hge)
        rw [h3 j (fun x hx => hj x (by simp [hx])),
          setRunText_getD_ne _ _ _ _ (by omega)]
      · rw [if_neg hsi] at h
        obtain ⟨h1, h2, h3⟩ := ih _ out (fun x hx => hv x (by simp [hx])) h
        refine ⟨?_, ?_, ?_⟩
        · rw [h1, setRunText_length, clearRange_length, setRunText_length]
        · rw [h2, setRunText_map_attr, clearRange_map_attr, setRunText_map_attr]
        · intro j hj
          have hj0 := hj (s, e, repl) (by simp)
          have hjx : j < locIdx texts s ∨ locIdx texts e < j := by
            rcases hj0 with hlt | hge
            · exact Or.inl (lt_locIdx_of_cum_lt texts s j (by omega) hlt)
            · exact Or.inr (locIdx_lt_of_le_cum texts e j (by omega) hge)
          have hlt : locIdx texts s < locIdx texts e := by omega
          rw [h3 j (fun x hx => hj x (by simp [hx])),
            setRunText_getD_ne _ _ _ _ (by omega),
            clearRange_getD_outside _ _ _ _ (by omega),
            setRunText_getD_ne _ _ _ _ (by omega)]

/-- Claim C6 (amended, run-level frame property of both passes): applying any
list of located spans preserves the number and order of runs and every run's
non-text attribute; and a run is returned untouched (text and object
equality) whenever, for every span, the run ends strictly before the span
starts or the span ends at or before the run begins.  (Strictness on the
start side is necessary: a span starting exactly at a run's right boundary
attaches the replacement to that earlier run, see the counterexample.) -/
theorem C6_pass_frame_property (runs : List Run) (spans : List Span)
    (out : List Run)
    (hv : ∀ x ∈ spans, x.1 < x.2.1 ∧ x.2.1 ≤ totalLen (runs.map Run.text))
    (h : apply_spans_to_paragraph_preserve_runs runs spans = some out) :
    out.length = runs.length ∧ out.map Run.attr = runs.map Run.attr ∧
    ∀ j, (∀ x ∈ spans, cumAt (runs.map Run.text) (j + 1) < x.1 ∨
          x.2.1 ≤ cumAt (runs.map Run.text) j) →
      out.getD j dfltRun = runs.getD j dfltRun := by
  rw [apply_spans_to_paragraph_preserve_runs] at h
  by_cases hsp : spans = []
  · rw [if_pos hsp, Option.some.injEq] at h
    subst h
    exact ⟨rfl, rfl, fun j hj => rfl⟩
  · rw [if_neg hsp] at h
    exact applySpansLoop_frame (runs.map Run.text) spans runs out hv h

/-- Witness for C6: paragraph `["ab", "cd", "ef"]`, span `(1, 3, "Z")`; run 2
lies beyond the span and is untouched. -/
theorem C6_pass_frame_property_witness :
    ([(1, 3, chs "Z")] : List Span).all
        (fun x => decide (x.1 < x.2.1) &&
          decide (x.2.1 ≤ totalLen ([⟨chs "ab", 0⟩, ⟨chs "cd", 1⟩, ⟨chs "ef", 2⟩].map Run.text))) = true ∧
    ([⟨chs "aZ", 0⟩, ⟨chs "d", 1⟩, ⟨chs "ef", 2⟩] : List Run).length =
        ([⟨chs "ab", 0⟩, ⟨chs "cd", 1⟩, ⟨chs "ef", 2⟩] : List Run).length ∧
    ([⟨chs "aZ", 0⟩, ⟨chs "d", 1⟩, ⟨chs "ef", 2⟩] : List Run).map Run.attr =
        ([⟨chs "ab", 0⟩, ⟨chs "cd", 1⟩, ⟨chs "ef", 2⟩] : List Run).map Run.attr ∧
    ∀ j, (∀ x ∈ ([(1, 3, chs "Z")] : List Span),
        cumAt ([⟨chs "ab", 0⟩, ⟨chs "cd", 1⟩, ⟨chs "ef", 2⟩].map Run.text) (j + 1) < x.1 ∨
        x.2.1 ≤ cumAt ([⟨chs "ab", 0⟩, ⟨chs "cd", 1⟩, ⟨chs "ef", 2⟩].map Run.text) j) →
      ([⟨chs "aZ", 0⟩, ⟨chs "d", 1⟩, ⟨chs "ef", 2⟩] : List Run).getD j dfltRun =
        ([⟨chs "ab", 0⟩, ⟨chs "cd", 1⟩, ⟨chs "ef", 2⟩] : List Run).getD j dfltRun := by
  have h := C6_pass_frame_property
    [⟨chs "ab", 0⟩, ⟨chs "cd", 1⟩, ⟨chs "ef", 2⟩] [(1, 3, chs "Z")]
    [⟨chs "aZ", 0⟩, ⟨chs "d", 1⟩, ⟨chs "ef", 2⟩]
    (by decide) (by decide)
  exact ⟨by decide, h.1, h.2.1, h.2.2⟩

/-- Counterexample to C6 as literally stated: in paragraph `["ab", "cd"]` the
span `(2, 4, "Z")` lies entirely within run 1's character range, so run 0's
range `[0, 2)` is entirely outside the span; yet the applier rewrites run 0's
text to `"abZ"` (the boundary rule of `locate` maps offset 2 to run 0). -/
theorem C6_counterexample :
    apply_spans_to_paragraph_preserve_runs [⟨chs "ab", 0⟩, ⟨chs "cd", 1⟩]
        [(2, 4, chs "Z")] = some [⟨chs "abZ", 0⟩, ⟨chs "", 1⟩] ∧
    cumAt ([⟨chs "ab", 0⟩, ⟨chs "cd", 1⟩].map Run.text) 1 ≤ 2 ∧
    ([⟨chs "abZ", 0⟩, ⟨chs "", 1⟩] : List Run).getD 0 dfltRun ≠
      ([⟨chs "ab", 0⟩, ⟨chs "cd", 1⟩] : List Run).getD 0 dfltRun := by
  refine ⟨by decide, by decide, by decide⟩


/-! ### Claims C2, C3, C4 -/

/-- Counterexample to C2 as stated: `locate` on run texts `["ab"]` (total
length 2) is called with the out-of-range position 5 and returns normally,
silently clamping to the end of the last run instead of raising. -/
theorem C2_counterexample :
    totalLen [chs "ab"] < 5 ∧ locate [chs "ab"] 5 = some (0, 2) := by
  refine ⟨by decide, by decide⟩

/-- Claim C2 (amended): for a position beyond the total concatenated length on
a paragraph with at least one run, `locate` does not raise: the scan loop
falls through and the fallback silently clamps to
`(len(texts) - 1, len(texts[-1]))`.  (Only a paragraph with zero runs makes
the fallback itself raise.) -/
theorem C2_locate_clamps (texts : List (List Char)) (pos : Nat)
    (hne : texts ≠ []) (h : totalLen texts < pos) :
    locate texts pos = some (texts.length - 1, (texts.getLastD []).length) := by
  rw [locate, locateLoop_none texts pos 0 0 (by omega),
    getLast?_of_ne_nil texts [] hne]

/-- Witness for the amended C2 at texts `["ab", "c"]` and position 9. -/
theorem C2_locate_clamps_witness :
    ([chs "ab", chs "c"] : List (List Char)) ≠ [] ∧ totalLen [chs "ab", chs "c"] < 9 ∧
    locate [chs "ab", chs "c"] 9 = some (1, 1) := by
  refine ⟨by decide, by decide, C2_locate_clamps [chs "ab", chs "c"] 9 (by decide) (by decide)⟩

/-- Counterexample to C3 as stated: invoking the Span Applier directly on a
paragraph with zero runs and a non-empty span list is not a silent no-op: the
fallback of `locate` evaluates `texts[-1]` on an empty list and raises
`IndexError` (modelled by `none`). -/
theorem C3_counterexample :
    apply_spans_to_paragraph_preserve_runs [] [(0, 1, chs "x")] = none ∧
    ([(0, 1, chs "x")] : List Span) ≠ [] := by
  refine ⟨by decide, by decide⟩

/-- Claim C3 (amended): a paragraph with zero runs is handled as a no-op by
the replace-pass entry point `replace_in_paragraph_preserve`, which returns
before ever invoking the Span Applier; the Applier itself, called directly
with zero runs and a non-empty span list, raises (IndexError in `locate`'s
fallback) rather than no-opping. -/
theorem C3_zero_runs (repls : List (List Char × List Char)) :
    replace_in_paragraph_preserve repls ⟨[]⟩ = ⟨[]⟩ ∧
    ∀ spans : List Span, spans ≠ [] →
      apply_spans_to_paragraph_preserve_runs [] spans = none := by
  refine ⟨rfl, ?_⟩
  intro spans h
  cases spans with
  | nil => exact absurd rfl h
  | cons a rest =>
    obtain ⟨s, e, r⟩ := a
    rfl

/-- Witness for the amended C3 at the empty replacement map and span list
`[(0, 1, "x")]`. -/
theorem C3_zero_runs_witness :
    replace_in_paragraph_preserve [] ⟨[]⟩ = ⟨[]⟩ ∧
    ([(0, 1, chs "x")] : List Span) ≠ [] ∧
    apply_spans_to_paragraph_preserve_runs [] [(0, 1, chs "x")] = none := by
  have h := C3_zero_runs []
  exact ⟨h.1, by decide, h.2 [(0, 1, chs "x")] (by decide)⟩

/-- Counterexample to C4 as stated: for run lengths `[2, 0, 3]`, position 4
maps to offset 2 inside run 2 (characters 2, 3, 4 of the text live in run 2),
not offset 1 as the claim asserts. -/
theorem C4_counterexample :
    locate [chs "ab", chs "", chs "abc"] 4 = some (2, 2) ∧
    ((2, 2) : Nat × Nat) ≠ (2, 1) := by
  refine ⟨by decide, by decide⟩

/-- Claim C4 (amended): for any runs of lengths `[2, 0, 3]`,
`locate(0) = (0, 0)`; `locate(2) = (0, 2)` (the boundary position maps to the
earlier run); and `locate(4) = (2, 2)`. -/
theorem C4_offset_table (t1 t2 t3 : List Char)
    (h1 : t1.length = 2) (h2 : t2.length = 0) (h3 : t3.length = 3) :
    locate [t1, t2, t3] 0 = some (0, 0) ∧
    locate [t1, t2, t3] 2 = some (0, 2) ∧
    locate [t1, t2, t3] 4 = some (2, 2) := by
  refine ⟨?_, ?_, ?_⟩ <;> simp [locate, locateLoop, h1, h2, h3]

/-- Witness for the amended C4 at runs `["ab", "", "abc"]`. -/
theorem C4_offset_table_witness :
    (chs "ab").length = 2 ∧ (chs "").length = 0 ∧ (chs "abc").length = 3 ∧
    (locate [chs "ab", chs "", chs "abc"] 0 = some (0, 0) ∧
     locate [chs "ab", chs "", chs "abc"] 2 = some (0, 2) ∧
     locate [chs "ab", chs "", chs "abc"] 4 = some (2, 2)) := by
  refine ⟨by decide, by decide, by decide,
    C4_offset_table (chs "ab") (chs "") (chs "abc") (by decide) (by decide) (by decide)⟩


/-! ### Properties of the literal scan (`text.find` and the per-key loop) -/

theorem head?_some_mem {α : Type} {l : List α} {a : α} (h : l.head? = some a) :
    a ∈ l := by
  cases l with
  | nil => simp at h
  | cons b t =>
    simp only [List.head?_cons, Option.some.injEq] at h
    subst h
    exact List.mem_cons_self b t

theorem occursAt_spec (text ph : List Char) (i : Nat)
    (h : occursAt text ph i = true) :
    i + ph.length ≤ text.length ∧ (text.drop i).take ph.length = ph := by
  rw [occursAt, Bool.and_eq_true, decide_eq_true_eq, beq_iff_eq] at h
  exact h

theorem findFrom_some (text ph : List Char) (st idx : Nat)
    (h : findFrom text ph st = some idx) :
    st ≤ idx ∧ occursAt text ph idx = true := by
  have hm := head?_some_mem h
  rw [List.mem_filter, Bool.and_eq_true, decide_eq_true_eq] at hm
  exact ⟨hm.2.1, hm.2.2⟩

theorem findFrom_min (text ph : List Char) (st idx : Nat)
    (h : findFrom text ph st = some idx) :
    ∀ j, st ≤ j → occursAt text ph j = true → idx ≤ j := by
  intro j hstj hocc
  have hpair : ((List.range (text.length + 1)).filter
      (fun i => decide (st ≤ i) && occursAt text ph i)).Pairwise (· < ·) :=
    List.Pairwise.sublist (List.filter_sublist _) (List.pairwise_lt_range _)
  have hjmem : j ∈ (List.range (text.length + 1)).filter
      (fun i => decide (st ≤ i) && occursAt text ph i) := by
    rw [List.mem_filter, List.mem_range, Bool.and_eq_true, decide_eq_true_eq]
    have := (occursAt_spec text ph j hocc).1
    exact ⟨by omega, hstj, hocc⟩
  rw [findFrom] at h
  rcases hL : (List.range (text.length + 1)).filter
      (fun i => decide (st ≤ i) && occursAt text ph i) with _ | ⟨a, tl⟩
  · rw [hL] at hjmem
    simp at hjmem
  · rw [hL] at h hjmem hpair
    simp only [List.head?_cons, Option.some.injEq] at h
    subst h
    rw [List.mem_cons] at hjmem
    rcases hjmem with h1 | h1
    · omega
    · exact Nat.le_of_lt ((List.pairwise_cons.mp hpair).1 j h1)

theorem findFrom_none (text ph : List Char) (st : Nat)
    (h : findFrom text ph st = none) :
    ∀ j, st ≤ j → occursAt text ph j = false := by
  intro j hstj
  rw [findFrom, List.head?_eq_none_iff] at h
  by_contra hocc
  rw [Bool.not_eq_false] at hocc
  have hjmem : j ∈ (List.range (text.length + 1)).filter
      (fun i => decide (st ≤ i) && occursAt text ph i) := by
    rw [List.mem_filter, List.mem_range, Bool.and_eq_true, decide_eq_true_eq]
    have := (occursAt_spec text ph j hocc).1
    exact ⟨by omega, hstj, hocc⟩
  rw [h] at hjmem
  simp at hjmem

theorem collectOccsAux_mem (text ph : List Char) :
    ∀ (n st : Nat) (x : Nat × Nat), x ∈ collectOccsAux text ph n st →
      st ≤ x.1 ∧ x.2 = x.1 + ph.length ∧ occursAt text ph x.1 = true := by
  intro n
  induction n with
  | zero => intro st x hx; simp [collectOccsAux] at hx
  | succ n ih =>
    intro st x hx
    rw [collectOccsAux] at hx
    rcases hf : findFrom text ph st with _ | idx
    · rw [hf] at hx; simp at hx
    · rw [hf] at hx
      have hs := findFrom_some text ph st idx hf
      rw [List.mem_cons] at hx
      rcases hx with hx | hx
      · rw [hx]; exact ⟨hs.1, rfl, hs.2⟩
      · have := ih (idx + ph.length) x hx
        exact ⟨by omega, this.2.1, this.2.2⟩

theorem collectOccsAux_pairwise (text ph : List Char) :
    ∀ (n st : Nat),
      (collectOccsAux text ph n st).Pairwise (fun a b => a.2 ≤ b.1) := by
  intro n
  induction n with
  | zero => intro st; simp [collectOccsAux]
  | succ n ih =>
    intro st
    rw [collectOccsAux]
    rcases hf : findFrom text ph st with _ | idx
    · simp
    · rw [List.pairwise_cons]
      refine ⟨?_, ih (idx + ph.length)⟩
      intro x hx
      exact (collectOccsAux_mem text ph n (idx + ph.length) x hx).1

theorem collectOccsAux_complete (text ph : List Char) (hph : 0 < ph.length) :
    ∀ (n st j : Nat), text.length + 1 - st ≤ n → st ≤ j →
      occursAt text ph j = true →
      ∃ x ∈ collectOccsAux text ph n st, x.1 ≤ j ∧ j < x.2 := by
  intro n
  induction n with
  | zero =>
    intro st j hn hj hocc
    have := (occursAt_spec text ph j hocc).1
    omega
  | succ n ih =>
    intro st j hn hj hocc
    rw [collectOccsAux]
    rcases hf : findFrom text ph st with _ | idx
    · have := findFrom_none text ph st hf j hj
      rw [this] at hocc
      exact absurd hocc (by simp)
    · have hs := findFrom_some text ph st idx hf
      have hbound := (occursAt_spec text ph idx hs.2).1
      by_cases hcase : j < idx + ph.length
      · refine ⟨(idx, idx + ph.length), by simp, ?_, hcase⟩
        exact findFrom_min text ph st idx hf j hj hocc
      · obtain ⟨x, hx1, hx2⟩ := ih (idx + ph.length) j (by omega) (by omega) hocc
        exact ⟨x, by simp [hx1], hx2⟩

/-- Fuel irrelevance for the per-key scan: any fuel of at least
`text.length + 1 - start` computes the same occurrence list, because each
found occurrence advances the scan position by the key's positive length. -/
theorem collectOccsAux_fuel (text ph : List Char) (hph : 0 < ph.length) :
    ∀ (n m st : Nat), text.length + 1 - st ≤ n → text.length + 1 - st ≤ m →
      collectOccsAux text ph n st = collectOccsAux text ph m st := by
  intro n
  induction n with
  | zero =>
    intro m st hn hm
    rcases hf : findFrom text ph st with _ | idx
    · cases m with
      | zero => rfl
      | succ m => simp [collectOccsAux, hf]
    · have hs := findFrom_some text ph st idx hf
      have hbound := (occursAt_spec text ph idx hs.2).1
      omega
  | succ n ih =>
    intro m st hn hm
    rcases hf : findFrom text ph st with _ | idx
    · cases m with
      | zero => simp [collectOccsAux, hf]
      | succ m => simp [collectOccsAux, hf]
    · have hs := findFrom_some text ph st idx hf
      have hbound := (occursAt_spec text ph idx hs.2).1
      cases m with
      | zero => omega
      | succ m =>
        simp only [collectOccsAux, hf]
        exact congrArg (List.cons _) (ih m (idx + ph.length) (by omega) (by omega))


/-! ### The descending stable sort -/

theorem insertSpanDesc_perm (x : Span) (l : List Span) :
    (insertSpanDesc x l).Perm (x :: l) := by
  induction l with
  | nil => exact List.Perm.refl _
  | cons y ys ih =>
    rw [insertSpanDesc]
    by_cases h : y.1 ≤ x.1
    · rw [if_pos h]
    · rw [if_neg h]
      exact List.Perm.trans (List.Perm.cons y ih) (List.Perm.swap x y ys)

theorem sortSpansDesc_perm (l : List Span) : (sortSpansDesc l).Perm l := by
  induction l with
  | nil => exact List.Perm.refl _
  | cons x xs ih =>
    exact List.Perm.trans (insertSpanDesc_perm x (sortSpansDesc xs))
      (List.Perm.cons x ih)

theorem mem_insertSpanDesc (x z : Span) (l : List Span) :
    z ∈ insertSpanDesc x l ↔ z = x ∨ z ∈ l := by
  rw [(insertSpanDesc_perm x l).mem_iff, List.mem_cons]

theorem insertSpanDesc_pairwise (x : Span) (l : List Span)
    (h : l.Pairwise (fun a b => b.1 ≤ a.1)) :
    (insertSpanDesc x l).Pairwise (fun a b => b.1 ≤ a.1) := by
  induction l with
  | nil => simp [insertSpanDesc]
  | cons y ys ih =>
    rw [List.pairwise_cons] at h
    rw [insertSpanDesc]
    by_cases hc : y.1 ≤ x.1
    · rw [if_pos hc, List.pairwise_cons]
      refine ⟨?_, List.pairwise_cons.mpr h⟩
      intro z hz
      rw [List.mem_cons] at hz
      rcases hz with rfl | hz
      · exact hc
      · exact Nat.le_trans (h.1 z hz) hc
    · rw [if_neg hc, List.pairwise_cons]
      refine ⟨?_, ih h.2⟩
      intro z hz
      rw [mem_insertSpanDesc] at hz
      rcases hz with rfl | hz
      · omega
      · exact h.1 z hz

theorem sortSpansDesc_pairwise (l : List Span) :
    (sortSpansDesc l).Pairwise (fun a b => b.1 ≤ a.1) := by
  induction l with
  | nil => simp [sortSpansDesc]
  | cons x xs ih => exact insertSpanDesc_pairwise x (sortSpansDesc xs) ih

/-! ### Claim C5 -/

/-- Accumulated spans as a flat map (the fold starts from `[]` and only ever
appends). -/
theorem spansOf_eq_flatMap (text : List Char) (repls : List (List Char × List Char)) :
    spansOf text repls =
      repls.flatMap (fun pv =>
        if pv.1 = [] then []
        else (collectOccs text pv.1 0).map (fun se => (se.1, se.2, pv.2))) := by
  rw [spansOf]
  have haux : ∀ (rs : List (List Char × List Char)) (init : List Span),
      rs.foldl (fun acc pv =>
        acc ++ (if pv.1 = [] then []
                else (collectOccs text pv.1 0).map (fun se => (se.1, se.2, pv.2)))) init
      = init ++ rs.flatMap (fun pv =>
          if pv.1 = [] then []
          else (collectOccs text pv.1 0).map (fun se => (se.1, se.2, pv.2))) := by
    intro rs
    induction rs with
    | nil => intro init; simp
    | cons p ps ih =>
      intro init
      rw [List.foldl_cons, ih, List.flatMap_cons, List.append_assoc]
  rw [haux, List.nil_append]

/-- Claim C5 (amended): the literal Span Locator produces, for each non-empty
key, exactly the non-overlapping occurrence spans found by the left-to-right
scan (each span is a genuine occurrence of its key, consecutive spans do not
overlap, and every occurrence of the key at or after the scan origin is
covered by a produced span), and the final list handed to the Applier is a
permutation of all per-key spans sorted by start offset descending --
non-strictly: two keys may match at the same start offset. -/
theorem C5_locator_spans (text : List Char) (repls : List (List Char × List Char)) :
    (collect_token_spans text repls).Pairwise (fun a b => b.1 ≤ a.1) ∧
    (collect_token_spans text repls).Perm
      (repls.flatMap (fun pv =>
        if pv.1 = [] then []
        else (collectOccs text pv.1 0).map (fun se => (se.1, se.2, pv.2)))) ∧
    ∀ ph : List Char, ph ≠ [] →
      ((∀ x ∈ collectOccs text ph 0, x.2 = x.1 + ph.length ∧
          occursAt text ph x.1 = true) ∧
       (collectOccs text ph 0).Pairwise (fun a b => a.2 ≤ b.1) ∧
       ∀ j, occursAt text ph j = true →
         ∃ x ∈ collectOccs text ph 0, x.1 ≤ j ∧ j < x.2) := by
  refine ⟨sortSpansDesc_pairwise _, ?_, ?_⟩
  · rw [collect_token_spans, ← spansOf_eq_flatMap]
    exact sortSpansDesc_perm _
  · intro ph hph
    have hlen : 0 < ph.length := List.length_pos.mpr hph
    refine ⟨?_, collectOccsAux_pairwise text ph _ 0, ?_⟩
    · intro x hx
      exact (collectOccsAux_mem text ph _ 0 x hx).2
    · intro j hj
      exact collectOccsAux_complete text ph hlen _ 0 j (by omega) (by omega) hj

/-- Witness for C5 at text `"abab"` and map `[("ab", "Z")]`. -/
theorem C5_locator_spans_witness :
    (collect_token_spans (chs "abab") [(chs "ab", chs "Z")]).Pairwise
        (fun a b => b.1 ≤ a.1) ∧
    (chs "ab") ≠ [] ∧
    (∀ x ∈ collectOccs (chs "abab") (chs "ab") 0,
        x.2 = x.1 + (chs "ab").length ∧ occursAt (chs "abab") (chs "ab") x.1 = true) ∧
    ∃ x ∈ collectOccs (chs "abab") (chs "ab") 0, x.1 ≤ 2 ∧ 2 < x.2 := by
  have h := C5_locator_spans (chs "abab") [(chs "ab", chs "Z")]
  have h3 := h.2.2 (chs "ab") (by decide)
  exact ⟨h.1, by decide, h3.1, h3.2.2 2 (by decide)⟩

/-- Counterexample to C5 as stated: with keys `"a"` and `"ab"` over text
`"ab"`, both keys match at offset 0, so the final list is
`[(0,1,"X"), (0,2,"Y")]` -- descending but not strictly descending. -/
theorem C5_counterexample :
    collect_token_spans (chs "ab") [(chs "a", chs "X"), (chs "ab", chs "Y")] =
      [(0, 1, chs "X"), (0, 2, chs "Y")] ∧
    ¬ (collect_token_spans (chs "ab") [(chs "a", chs "X"), (chs "ab", chs "Y")]).Pairwise
        (fun a b => b.1 < a.1) := by
  refine ⟨by decide, ?_⟩
  intro h
  rw [(by decide : collect_token_spans (chs "ab") [(chs "a", chs "X"), (chs "ab", chs "Y")] =
      [(0, 1, chs "X"), (0, 2, chs "Y")]), List.pairwise_cons] at h
  have := h.1 (0, 2, chs "Y") (by simp)
  omega

/-! ### Claim C10 -/

/-- Claim C10: the literal span collector terminates on every input: an empty
key is skipped outright (it contributes no spans and no further scanning),
and for a non-empty key every found occurrence advances the scan position
`idx + len(ph)` strictly beyond the previous position while staying bounded by
the text length, so `text.length + 1 - start` iterations always suffice and
the scan's fuel never runs out. -/
theorem C10_collector_terminates :
    (∀ (text : List Char) (v : List Char) (rest : List (List Char × List Char)),
      collect_token_spans text ((([] : List Char), v) :: rest) =
        collect_token_spans text rest) ∧
    (∀ (text ph : List Char) (st idx : Nat), 0 < ph.length →
      findFrom text ph st = some idx →
      st < idx + ph.length ∧ idx + ph.length ≤ text.length) ∧
    (∀ (text ph : List Char) (n st : Nat), 0 < ph.length →
      text.length + 1 - st ≤ n →
      collectOccsAux text ph n st = collectOccs text ph st) := by
  refine ⟨?_, ?_, ?_⟩
  · intro text v rest
    simp [collect_token_spans, spansOf]
  · intro text ph st idx hph hf
    have hs := findFrom_some text ph st idx hf
    have hb := (occursAt_spec text ph idx hs.2).1
    omega
  · intro text ph n st hph hn
    exact collectOccsAux_fuel text ph hph n (text.length + 1 - st) st hn (by omega)

/-- Witness for C10: the empty key is dropped; finding `"a"` in `"aba"` from
position 1 yields index 2 with strict progress; and fuel 50 computes the same
occurrence list as the default fuel. -/
theorem C10_collector_terminates_witness :
    collect_token_spans (chs "ab") [(chs "", chs "V"), (chs "ab", chs "W")] =
      collect_token_spans (chs "ab") [(chs "ab", chs "W")] ∧
    (0 < (chs "a").length ∧ findFrom (chs "aba") (chs "a") 1 = some 2 ∧
      1 < 2 + (chs "a").length ∧ 2 + (chs "a").length ≤ (chs "aba").length) ∧
    collectOccsAux (chs "aba") (chs "a") 50 0 = collectOccs (chs "aba") (chs "a") 0 := by
  have h := C10_collector_terminates
  refine ⟨h.1 (chs "ab") (chs "V") [(chs "ab", chs "W")], ⟨by decide, by decide, ?_⟩, ?_⟩
  · exact h.2.1 (chs "aba") (chs "a") 1 2 (by decide) (by decide)
  · exact h.2.2 (chs "aba") (chs "a") 50 0 (by decide) (by decide)


/-! ### The deletion pass of src/app.py -/

/-- The opening brace character, by code point (0x7b). -/
def lbrace : Char := Char.ofNat 123

/-- The closing brace character, by code point (0x7d). -/
def rbrace : Char := Char.ofNat 125

/-- Character class `[^\x7b\x7d]` of the removal pattern. -/
def nonBrace (c : Char) : Bool := !(c == lbrace || c == rbrace)

/-- Python `run.endswith(s)` on character lists. -/
def endsWith (run s : List Char) : Bool :=
  run.drop (run.length - s.length) == s

/-- One match attempt of the compiled removal pattern
(src/app.py lines 86-87: two opening braces, then one or more non-brace
characters, then one of the escaped suffixes, then two closing braces) at
position `i`, returning the end of the match.  Because every character matched
before the closing braces is non-brace (the callers only pass the brace-free
suffixes `"_2"`/`"_3"`), the one-or-more body is forced to stop at the first
brace after `i + 2`: the pattern matches at `i` exactly when positions `i` and
`i + 1` hold opening braces, the maximal non-brace run after them is followed
immediately by two closing braces, and some suffix of the set is a proper
suffix of that run (proper, so that the one-or-more body is non-empty). -/
def matchEndAt (text : List Char) (sfxs : List (List Char)) (i : Nat) : Option Nat :=
  match text.drop i with
  | c1 :: c2 :: rest2 =>
    if c1 == lbrace && c2 == lbrace then
      let run := rest2.takeWhile nonBrace
      if decide (0 < run.length) &&
          ((rest2.drop run.length).take 2 == [rbrace, rbrace]) &&
          sfxs.any (fun s => endsWith run s && decide (s.length < run.length))
      then some (i + 2 + run.length + 2) else none
    else none
  | _ => none

theorem matchEndAt_progress (text : List Char) (sfxs : List (List Char))
    (i e : Nat) (h : matchEndAt text sfxs i = some e) : i < e := by
  rw [matchEndAt] at h
  dsimp only [] at h
  split at h
  · split at h
    · split at h
      · rw [Option.some.injEq] at h
        omega
      · exact Option.noConfusion h
    · exact Option.noConfusion h
  · exact Option.noConfusion h

/-- The scan of `pattern.finditer(full)` (src/app.py line 96): left to right,
non-overlapping (after a match the scan resumes at its end).  The first
argument is fuel; since every accepted match ends strictly past its start,
`text.length` iterations suffice when starting at position 0
(lemma `findMatchesAux_fuel`). -/
def findMatchesAux (text : List Char) (sfxs : List (List Char)) :
    Nat → Nat → List (Nat × Nat)
  | 0, _ => []
  | n + 1, i =>
    if text.length ≤ i then []
    else
      match matchEndAt text sfxs i with
      | some e => (i, e) :: findMatchesAux text sfxs n e
      | none => findMatchesAux text sfxs n (i + 1)

/-- All spans `[(m.start(), m.end()) for m in pattern.finditer(full)]`. -/
def findMatches (text : List Char) (sfxs : List (List Char)) : List (Nat × Nat) :=
  findMatchesAux text sfxs text.length 0

/-- Fuel irrelevance for the match scan: any fuel of at least
`text.length - i` computes the same match list. -/
theorem findMatchesAux_fuel (text : List Char) (sfxs : List (List Char)) :
    ∀ n m i : Nat, text.length - i ≤ n → text.length - i ≤ m →
      findMatchesAux text sfxs n i = findMatchesAux text sfxs m i := by
  intro n
  induction n with
  | zero =>
    intro m i hn hm
    have hi : text.length ≤ i := by omega
    cases m with
    | zero => rfl
    | succ m => simp [findMatchesAux, hi]
  | succ n ih =>
    intro m i hn hm
    by_cases hi : text.length ≤ i
    · cases m with
      | zero => simp [findMatchesAux, hi]
      | succ m => simp [findMatchesAux, hi]
    · cases m with
      | zero => omega
      | succ m =>
        rcases hf : matchEndAt text sfxs i with _ | e
        · simp only [findMatchesAux, if_neg hi, hf]
          exact ih m (i + 1) (by omega) (by omega)
        · simp only [findMatchesAux, if_neg hi, hf]
          have := matchEndAt_progress text sfxs i e hf
          exact congrArg (List.cons _) (ih m e (by omega) (by omega))

/-- `_clean_paragraph(p)` of `_remove_placeholders_with_suffixes`
(src/app.py lines 89-121): no-op without runs, without text, or without
matches; otherwise apply the match spans right-to-left.  The inline
application loop of `_clean_paragraph` is the span-application loop of
`_apply_spans_to_paragraph_preserve_runs` specialised to an empty replacement
(`text[:so] + text[eo:]` is `text[:so] + "" + text[eo:]`), so it is modelled
by `applySpansLoop` with empty replacement text; the `none` branch is
unreachable because the run list is non-empty (`applySpansLoop_ne_none`). -/
def clean_paragraph (sfxs : List (List Char)) (p : Para) : Para :=
  if p.runs = [] then p
  else if joinText p.runs = [] then p
  else
    let spans := findMatches (joinText p.runs) sfxs
    if spans = [] then p
    else
      match applySpansLoop (p.runs.map Run.text) p.runs
          (sortSpansDesc (spans.map (fun m => (m.1, m.2, ([] : List Char))))) with
      | some out => ⟨out⟩
      | none => p

theorem locate_isSome (texts : List (List Char)) (pos : Nat)
    (hne : texts ≠ []) : ∃ ro, locate texts pos = some ro := by
  rw [locate]
  rcases h : locateLoop pos 0 0 texts with _ | ro
  · rw [getLast?_of_ne_nil texts [] hne]
    exact ⟨_, rfl⟩
  · exact ⟨ro, rfl⟩

/-- On a non-empty run list the span-application loop never fails: `locate`
always returns (possibly via its clamping fallback). -/
theorem applySpansLoop_ne_none (texts : List (List Char)) (hne : texts ≠ []) :
    ∀ (spans : List Span) (cur : List Run),
      applySpansLoop texts cur spans ≠ none := by
  intro spans
  induction spans with
  | nil => intro cur h; rw [applySpansLoop] at h; exact Option.noConfusion h
  | cons x rest ih =>
    obtain ⟨s, e, repl⟩ := x
    intro cur h
    obtain ⟨⟨si, so⟩, hs⟩ := locate_isSome texts s hne
    obtain ⟨⟨ei, eo⟩, he⟩ := locate_isSome texts e hne
    rw [applySpansLoop, hs, he] at h
    dsimp only [] at h
    by_cases hsi : si = ei
    · rw [if_pos hsi] at h
      exact ih _ h
    · rw [if_neg hsi] at h
      exact ih _ h

/-- A paragraph whose concatenated text has no pattern match is left untouched
by the deletion pass. -/
theorem clean_paragraph_fix (sfxs : List (List Char)) (p : Para)
    (h : findMatches (joinText p.runs) sfxs = []) :
    clean_paragraph sfxs p = p := by
  rw [clean_paragraph]
  by_cases h1 : p.runs = []
  · rw [if_pos h1]
  · rw [if_neg h1]
    by_cases h2 : joinText p.runs = []
    · rw [if_pos h2]
    · rw [if_neg h2]
      simp [h]


/-! ### The document tree and the two tree walks -/

mutual
/-- A table cell: its paragraphs and its nested tables
(python-docx `cell.paragraphs` and `cell.tables`). -/
inductive Cell where
  | mk (paras : List Para) (tables : List Table) : Cell
/-- A table: rows of cells (python-docx `table.rows`, `row.cells`). -/
inductive Table where
  | mk (rows : List (List Cell)) : Table
end

/-- A header or footer region: paragraphs and tables
(`hdrftr.paragraphs`, `hdrftr.tables`). -/
structure HdrFtr where
  paras : List Para
  tables : List Table

/-- A document section with its header and footer (`section.header`,
`section.footer`). -/
structure Sect where
  header : HdrFtr
  footer : HdrFtr

/-- A document: body paragraphs, body tables, sections
(`doc.paragraphs`, `doc.tables`, `doc.sections`). -/
structure Doc where
  paras : List Para
  tables : List Table
  sections : List Sect

mutual
/-- The per-cell tree walk shared by `replace_in_cell_preserve`
(src/generate_io.py lines 183-189) and `_clean_cell` (src/app.py lines
123-129): apply the per-paragraph operation `f` to every paragraph of the
cell, then recurse into every nested table. -/
def mapParasCell (f : Para → Para) : Cell → Cell
  | .mk paras tables =>
    .mk (paras.map f) (tables.attach.map (fun t => mapParasTable f t.1))
termination_by c => sizeOf c
decreasing_by
  have h1 := List.sizeOf_lt_of_mem t.2
  simp only [Cell.mk.sizeOf_spec]
  omega
/-- The rows-and-cells walk over one table (`for row in table.rows: for cell
in row.cells: ...`), shared by both passes. -/
def mapParasTable (f : Para → Para) : Table → Table
  | .mk rows =>
    .mk (rows.attach.map (fun row => row.1.attach.map (fun c => mapParasCell f c.1)))
termination_by t => sizeOf t
decreasing_by
  have h1 := List.sizeOf_lt_of_mem c.2
  have h2 := List.sizeOf_lt_of_mem row.2
  simp only [Table.mk.sizeOf_spec]
  omega
end

theorem mapParasCell_mk (f : Para → Para) (paras : List Para) (tables : List Table) :
    mapParasCell f (.mk paras tables) =
      .mk (paras.map f) (tables.map (mapParasTable f)) := by
  rw [mapParasCell]
  simp [List.attach_map_coe]

theorem mapParasTable_mk (f : Para → Para) (rows : List (List Cell)) :
    mapParasTable f (.mk rows) =
      .mk (rows.map (fun row => row.map (mapParasCell f))) := by
  rw [mapParasTable]
  simp [List.attach_map_coe]

/-- Walk of a header/footer region (`for p in hdrftr.paragraphs`, then
`for table in hdrftr.tables`, both passes). -/
def mapParasHdrFtr (f : Para → Para) (h : HdrFtr) : HdrFtr :=
  ⟨h.paras.map f, h.tables.map (mapParasTable f)⟩

/-- Walk of one section: header then footer
(`for hdrftr in (section.header, section.footer)`). -/
def mapParasSect (f : Para → Para) (s : Sect) : Sect :=
  ⟨mapParasHdrFtr f s.header, mapParasHdrFtr f s.footer⟩

/-- The whole-document walk shared by `replace_everywhere`
(src/generate_io.py lines 191-207) and the body of
`_remove_placeholders_with_suffixes` (src/app.py lines 131-147): body
paragraphs, body tables, then every section's header and footer. -/
def mapParasDoc (f : Para → Para) (d : Doc) : Doc :=
  ⟨d.paras.map f, d.tables.map (mapParasTable f), d.sections.map (mapParasSect f)⟩

/-- `replace_everywhere(doc, replacements)` (src/generate_io.py lines
191-207). -/
def replace_everywhere (repls : List (List Char × List Char)) (d : Doc) : Doc :=
  mapParasDoc (replace_in_paragraph_preserve repls) d

/-- `_remove_placeholders_with_suffixes(doc, suffixes)` (src/app.py lines
82-147): returns the document untouched when the suffix set is empty,
otherwise cleans every paragraph of the tree. -/
def remove_placeholders_with_suffixes (sfxs : List (List Char)) (d : Doc) : Doc :=
  if sfxs = [] then d else mapParasDoc (clean_paragraph sfxs) d

mutual
/-- All paragraphs of a cell, in walk order. -/
def cellParas : Cell → List Para
  | .mk paras tables =>
    paras ++ (tables.attach.map (fun t => tableParas t.1)).flatten
termination_by c => sizeOf c
decreasing_by
  have h1 := List.sizeOf_lt_of_mem t.2
  simp only [Cell.mk.sizeOf_spec]
  omega
/-- All paragraphs of a table, in walk order. -/
def tableParas : Table → List Para
  | .mk rows =>
    (rows.attach.map
      (fun row => (row.1.attach.map (fun c => cellParas c.1)).flatten)).flatten
termination_by t => sizeOf t
decreasing_by
  have h1 := List.sizeOf_lt_of_mem c.2
  have h2 := List.sizeOf_lt_of_mem row.2
  simp only [Table.mk.sizeOf_spec]
  omega
end

theorem cellParas_mk (paras : List Para) (tables : List Table) :
    cellParas (.mk paras tables) = paras ++ (tables.map tableParas).flatten := by
  rw [cellParas]
  simp [List.attach_map_coe]

theorem tableParas_mk (rows : List (List Cell)) :
    tableParas (.mk rows) =
      (rows.map (fun row => (row.map cellParas).flatten)).flatten := by
  rw [tableParas]
  simp [List.attach_map_coe]

/-- All paragraphs of a header/footer region, in walk order. -/
def hdrFtrParas (h : HdrFtr) : List Para :=
  h.paras ++ (h.tables.map tableParas).flatten

/-- All paragraphs of a section, in walk order. -/
def sectParas (s : Sect) : List Para :=
  hdrFtrParas s.header ++ hdrFtrParas s.footer

/-- All paragraphs of a document, in walk order. -/
def docParas (d : Doc) : List Para :=
  d.paras ++ (d.tables.map tableParas).flatten ++ (d.sections.map sectParas).flatten

theorem map_eq_self {α : Type} (l : List α) (f : α → α)
    (h : ∀ a ∈ l, f a = a) : l.map f = l := by
  induction l with
  | nil => rfl
  | cons a as ih =>
    rw [List.map_cons, h a (List.mem_cons_self a as),
      ih (fun b hb => h b (List.mem_cons_of_mem a hb))]

/-- Joint strong induction for the tree fix lemmas: a per-paragraph operation
that fixes every paragraph of a cell (resp. table) fixes the cell (resp.
table). -/
theorem fix_both (f : Para → Para) : ∀ n : Nat,
    (∀ c : Cell, sizeOf c ≤ n → (∀ p ∈ cellParas c, f p = p) →
      mapParasCell f c = c) ∧
    (∀ t : Table, sizeOf t ≤ n → (∀ p ∈ tableParas t, f p = p) →
      mapParasTable f t = t) := by
  intro n
  induction n using Nat.strong_induction_on with
  | _ n ih =>
    constructor
    · intro c hc h
      obtain ⟨paras, tables⟩ := c
      rw [mapParasCell_mk]
      rw [cellParas_mk] at h
      have hsz : sizeOf (Cell.mk paras tables) = 1 + sizeOf paras + sizeOf tables :=
        Cell.mk.sizeOf_spec paras tables
      have h1 : paras.map f = paras :=
        map_eq_self paras f (fun p hp => h p (List.mem_append_left _ hp))
      have h2 : tables.map (mapParasTable f) = tables := by
        refine map_eq_self tables (mapParasTable f) ?_
        intro t ht
        have hlt : sizeOf t < n := by
          have := List.sizeOf_lt_of_mem ht
          omega
        refine (ih (sizeOf t) hlt).2 t (Nat.le_refl _) ?_
        intro p hp
        refine h p (List.mem_append_right _ ?_)
        rw [List.mem_flatten]
        exact ⟨tableParas t, List.mem_map_of_mem tableParas ht, hp⟩
      rw [h1, h2]
    · intro t ht h
      obtain ⟨rows⟩ := t
      rw [mapParasTable_mk]
      rw [tableParas_mk] at h
      have hsz : sizeOf (Table.mk rows) = 1 + sizeOf rows :=
        Table.mk.sizeOf_spec rows
      refine congrArg Table.mk ?_
      refine map_eq_self rows (fun row => row.map (mapParasCell f)) ?_
      intro row hrow
      refine map_eq_self row (mapParasCell f) ?_
      intro c hc
      have hlt : sizeOf c < n := by
        have hx1 := List.sizeOf_lt_of_mem hc
        have hx2 := List.sizeOf_lt_of_mem hrow
        omega
      refine (ih (sizeOf c) hlt).1 c (Nat.le_refl _) ?_
      intro p hp
      refine h p ?_
      rw [List.mem_flatten]
      refine ⟨(row.map cellParas).flatten, ?_, ?_⟩
      · exact List.mem_map_of_mem _ hrow
      · rw [List.mem_flatten]
        exact ⟨cellParas c, List.mem_map_of_mem cellParas hc, hp⟩

theorem mapParasCell_fix (f : Para → Para) (c : Cell)
    (h : ∀ p ∈ cellParas c, f p = p) : mapParasCell f c = c :=
  (fix_both f (sizeOf c)).1 c (Nat.le_refl _) h

theorem mapParasTable_fix (f : Para → Para) (t : Table)
    (h : ∀ p ∈ tableParas t, f p = p) : mapParasTable f t = t :=
  (fix_both f (sizeOf t)).2 t (Nat.le_refl _) h

/-- A per-paragraph operation that fixes every paragraph of the document
fixes the whole document walk. -/
theorem mapParasDoc_fix (f : Para → Para) (d : Doc)
    (h : ∀ p ∈ docParas d, f p = p) : mapParasDoc f d = d := by
  obtain ⟨paras, tables, sections⟩ := d
  rw [mapParasDoc]
  simp only [docParas] at h
  have h1 : paras.map f = paras :=
    map_eq_self paras f (fun p hp =>
      h p (List.mem_append_left _ (List.mem_append_left _ hp)))
  have h2 : tables.map (mapParasTable f) = tables := by
    refine map_eq_self tables (mapParasTable f) ?_
    intro t ht
    refine mapParasTable_fix f t ?_
    intro p hp
    refine h p (List.mem_append_left _ (List.mem_append_right _ ?_))
    rw [List.mem_flatten]
    exact ⟨tableParas t, List.mem_map_of_mem tableParas ht, hp⟩
  have h3 : sections.map (mapParasSect f) = sections := by
    refine map_eq_self sections (mapParasSect f) ?_
    intro s hs
    have hfix : ∀ hf : HdrFtr, (∀ p ∈ hdrFtrParas hf, f p = p) →
        mapParasHdrFtr f hf = hf := by
      intro hf hh
      obtain ⟨ps, ts⟩ := hf
      rw [mapParasHdrFtr]
      simp only [hdrFtrParas] at hh
      have ha : ps.map f = ps :=
        map_eq_self ps f (fun p hp => hh p (List.mem_append_left _ hp))
      have hb : ts.map (mapParasTable f) = ts := by
        refine map_eq_self ts (mapParasTable f) ?_
        intro t ht
        refine mapParasTable_fix f t ?_
        intro p hp
        refine hh p (List.mem_append_right _ ?_)
        rw [List.mem_flatten]
        exact ⟨tableParas t, List.mem_map_of_mem tableParas ht, hp⟩
      simp only at ha hb
      rw [ha, hb]
    have hsp : ∀ p ∈ sectParas s, f p = p := by
      intro p hp
      refine h p (List.mem_append_right _ ?_)
      rw [List.mem_flatten]
      exact ⟨sectParas s, List.mem_map_of_mem sectParas hs, hp⟩
    obtain ⟨hd, ft⟩ := s
    rw [mapParasSect]
    simp only [sectParas] at hsp
    rw [hfix hd (fun p hp => hsp p (List.mem_append_left _ hp)),
      hfix ft (fun p hp => hsp p (List.mem_append_right _ hp))]
  rw [h1, h2, h3]


/-! ### Claims C7 and C8 -/

/-- Claim C7: on concatenated text `"Budget: \x7b\x7bcampaign_budget_2\x7d\x7d done"` with
suffix set containing only `"_2"`, the deletion pass removes the whole
placeholder token and keeps the surrounding text: the result is
`"Budget:  done"` -- both at paragraph level and through the whole-document
entry point. -/
theorem C7_deletion_example :
    clean_paragraph [chs "_2"]
        ⟨[⟨chs "Budget: \x7b\x7bcampaign_budget_2\x7d\x7d done", 0⟩]⟩ =
      ⟨[⟨chs "Budget:  done", 0⟩]⟩ ∧
    (remove_placeholders_with_suffixes [chs "_2"]
        ⟨[⟨[⟨chs "Budget: \x7b\x7bcampaign_budget_2\x7d\x7d done", 0⟩]⟩], [], []⟩).paras.map
          (fun p => p.runs.map Run.text) = [[chs "Budget:  done"]] := by
  refine ⟨by decide, by decide⟩

/-- Counterexample to C8 as stated: with nested placeholders the first
deletion can create a new match.  On the single-paragraph document with run
text `"\x7b\x7ba\x7b\x7bx_2\x7d\x7d_2\x7d\x7d"`, one pass deletes the inner token leaving
`"\x7b\x7ba_2\x7d\x7d"`, which the pattern matches again, so a second pass deletes it
too: running the pass twice does not produce the same run texts as running it
once. -/
theorem C8_counterexample :
    (remove_placeholders_with_suffixes [chs "_2"]
        ⟨[⟨[⟨chs "\x7b\x7ba\x7b\x7bx_2\x7d\x7d_2\x7d\x7d", 0⟩]⟩], [], []⟩).paras.map
      (fun p => p.runs.map Run.text) = [[chs "\x7b\x7ba_2\x7d\x7d"]] ∧
    (remove_placeholders_with_suffixes [chs "_2"]
        (remove_placeholders_with_suffixes [chs "_2"]
          ⟨[⟨[⟨chs "\x7b\x7ba\x7b\x7bx_2\x7d\x7d_2\x7d\x7d", 0⟩]⟩], [], []⟩)).paras.map
      (fun p => p.runs.map Run.text) = [[chs ""]] ∧
    ((remove_placeholders_with_suffixes [chs "_2"]
        (remove_placeholders_with_suffixes [chs "_2"]
          ⟨[⟨[⟨chs "\x7b\x7ba\x7b\x7bx_2\x7d\x7d_2\x7d\x7d", 0⟩]⟩], [], []⟩)).paras.map
      (fun p => p.runs.map Run.text)) ≠
    ((remove_placeholders_with_suffixes [chs "_2"]
        ⟨[⟨[⟨chs "\x7b\x7ba\x7b\x7bx_2\x7d\x7d_2\x7d\x7d", 0⟩]⟩], [], []⟩).paras.map
      (fun p => p.runs.map Run.text)) := by
  refine ⟨by decide, by decide, by decide⟩

/-- Claim C8 (amended): running the deletion pass twice with the same suffix
set produces the same document as running it once, provided the first pass
leaves no pattern match anywhere in the tree (deleting a token can
concatenate its surroundings into a new match when placeholders nest, in
which case a second pass deletes more). -/
theorem C8_deletion_idempotent (sfxs : List (List Char)) (d : Doc)
    (h : ∀ p ∈ docParas (remove_placeholders_with_suffixes sfxs d),
      findMatches (joinText p.runs) sfxs = []) :
    remove_placeholders_with_suffixes sfxs
        (remove_placeholders_with_suffixes sfxs d) =
      remove_placeholders_with_suffixes sfxs d := by
  by_cases hs : sfxs = []
  · rw [remove_placeholders_with_suffixes, if_pos hs]
  · rw [remove_placeholders_with_suffixes, if_neg hs]
    refine mapParasDoc_fix _ _ ?_
    intro p hp
    exact clean_paragraph_fix sfxs p (h p hp)

/-- Witness for the amended C8: after one pass over the P5 document no match
remains, and the second pass is the identity on the once-cleaned document. -/
theorem C8_deletion_idempotent_witness :
    (∀ p ∈ docParas (remove_placeholders_with_suffixes [chs "_2"]
        ⟨[⟨[⟨chs "Budget: \x7b\x7bcampaign_budget_2\x7d\x7d done", 0⟩]⟩], [], []⟩),
      findMatches (joinText p.runs) [chs "_2"] = []) ∧
    remove_placeholders_with_suffixes [chs "_2"]
        (remove_placeholders_with_suffixes [chs "_2"]
          ⟨[⟨[⟨chs "Budget: \x7b\x7bcampaign_budget_2\x7d\x7d done", 0⟩]⟩], [], []⟩) =
      remove_placeholders_with_suffixes [chs "_2"]
        ⟨[⟨[⟨chs "Budget: \x7b\x7bcampaign_budget_2\x7d\x7d done", 0⟩]⟩], [], []⟩ := by
  refine ⟨by decide, C8_deletion_idempotent [chs "_2"] _ (by decide)⟩

/-! ### Claim C9 -/

/-- The five required placeholders (`REQUIRED_PLACEHOLDERS`,
src/generate_io.py lines 103-106).  The Python value is a set; only
membership matters for the statements below, so the iteration order fixed
here is immaterial. -/
def REQUIRED_PLACEHOLDERS : List (List Char) :=
  [chs "\x7b\x7bcampaign_name\x7d\x7d", chs "\x7b\x7bclient_name\x7d\x7d",
   chs "\x7b\x7bstart_date\x7d\x7d", chs "\x7b\x7bend_date\x7d\x7d",
   chs "\x7b\x7btotal_budget\x7d\x7d"]

/-- The comprehension `[ph for ph in REQUIRED_PLACEHOLDERS if not
repl.get(ph)]` (src/generate_io.py line 211): a required placeholder is
collected when the map holds no binding for it or binds it to the empty
string -- `repl.get(ph)` is falsy in both cases. -/
def missingRequired (repl : List (List Char × List Char)) : List (List Char) :=
  REQUIRED_PLACEHOLDERS.filter (fun ph =>
    match repl.lookup ph with
    | none => true
    | some v => v.isEmpty)

/-- `validate_required(repl)` (src/generate_io.py lines 210-212): `none` when
nothing is missing, otherwise the warning message listing every collected
placeholder, comma-joined. -/
def validate_required (repl : List (List Char × List Char)) : Option (List Char) :=
  if missingRequired repl = [] then none
  else some (chs "Missing required value(s) for: " ++
    List.intercalate (chs ", ") (missingRequired repl))

/-- Step 4 of `main` (src/generate_io.py lines 270-277): the validation
outcome is only printed as a warning; the document substitution runs
unconditionally afterwards with whatever values are present. -/
def mainGenerate (repl : List (List Char × List Char)) (d : Doc) :
    Option (List Char) × Doc :=
  (validate_required repl, replace_everywhere repl d)

/-- Claim C9 (amended): validation returns a message exactly when some
required placeholder is absent from the map or mapped to an empty value, the
collected list contains exactly those placeholders, and the substitution over
the document proceeds regardless of the validation outcome. -/
theorem C9_validation (repl : List (List Char × List Char)) :
    (validate_required repl = none ↔ missingRequired repl = []) ∧
    (∀ ph, ph ∈ missingRequired repl ↔
      ph ∈ REQUIRED_PLACEHOLDERS ∧
        (repl.lookup ph = none ∨ repl.lookup ph = some [])) ∧
    (∀ d, (mainGenerate repl d).2 = replace_everywhere repl d) := by
  refine ⟨?_, ?_, fun d => rfl⟩
  · rw [validate_required]
    by_cases h : missingRequired repl = []
    · rw [if_pos h]
      simp [h]
    · rw [if_neg h]
      simp [h]
  · intro ph
    rw [missingRequired, List.mem_filter]
    constructor
    · rintro ⟨h1, h2⟩
      refine ⟨h1, ?_⟩
      rcases hl : repl.lookup ph with _ | v
      · exact Or.inl rfl
      · rw [hl] at h2
        simp only [List.isEmpty_iff] at h2
        exact Or.inr (by rw [h2])
    · rintro ⟨h1, h2⟩
      refine ⟨h1, ?_⟩
      rcases h2 with h2 | h2
      · rw [h2]
      · rw [h2]
        simp [List.isEmpty_iff]

/-- Counterexample to C9 as stated: a map binding every required placeholder
(nothing is absent) but with an empty campaign name still triggers the
warning, because the comprehension tests falsiness, not absence. -/
theorem C9_counterexample :
    (∀ ph ∈ REQUIRED_PLACEHOLDERS,
      (([(chs "\x7b\x7bcampaign_name\x7d\x7d", chs ""),
         (chs "\x7b\x7bclient_name\x7d\x7d", chs "C"),
         (chs "\x7b\x7bstart_date\x7d\x7d", chs "S"),
         (chs "\x7b\x7bend_date\x7d\x7d", chs "E"),
         (chs "\x7b\x7btotal_budget\x7d\x7d", chs "T")] : List (List Char × List Char)).lookup
        ph).isSome = true) ∧
    validate_required
      [(chs "\x7b\x7bcampaign_name\x7d\x7d", chs ""),
       (chs "\x7b\x7bclient_name\x7d\x7d", chs "C"),
       (chs "\x7b\x7bstart_date\x7d\x7d", chs "S"),
       (chs "\x7b\x7bend_date\x7d\x7d", chs "E"),
       (chs "\x7b\x7btotal_budget\x7d\x7d", chs "T")] ≠ none := by
  refine ⟨by decide, by decide⟩

/-- Witness for the amended C9 at a map supplying only the campaign name. -/
theorem C9_validation_witness :
    (validate_required [(chs "\x7b\x7bcampaign_name\x7d\x7d", chs "X")] = none ↔
      missingRequired [(chs "\x7b\x7bcampaign_name\x7d\x7d", chs "X")] = []) ∧
    (chs "\x7b\x7bclient_name\x7d\x7d" ∈
        missingRequired [(chs "\x7b\x7bcampaign_name\x7d\x7d", chs "X")] ↔
      chs "\x7b\x7bclient_name\x7d\x7d" ∈ REQUIRED_PLACEHOLDERS ∧
        (([(chs "\x7b\x7bcampaign_name\x7d\x7d", chs "X")] : List (List Char × List Char)).lookup
            (chs "\x7b\x7bclient_name\x7d\x7d") = none ∨
         ([(chs "\x7b\x7bcampaign_name\x7d\x7d", chs "X")] : List (List Char × List Char)).lookup
            (chs "\x7b\x7bclient_name\x7d\x7d") = some [])) ∧
    (mainGenerate [(chs "\x7b\x7bcampaign_name\x7d\x7d", chs "X")] ⟨[], [], []⟩).2 =
      replace_everywhere [(chs "\x7b\x7bcampaign_name\x7d\x7d", chs "X")] ⟨[], [], []⟩ := by
  have h := C9_validation [(chs "\x7b\x7bcampaign_name\x7d\x7d", chs "X")]
  exact ⟨h.1, h.2.1 (chs "\x7b\x7bclient_name\x7d\x7d"), h.2.2 ⟨[], [], []⟩⟩


/-! ### The spans each pass feeds to the applier satisfy its side conditions -/

/-- Every span the literal Locator hands to the Applier satisfies
`start < end ≤ text.length` -- the side conditions assumed by the claim C1 and
claim C6 theorems. -/
theorem collect_token_spans_bounds (text : List Char)
    (repls : List (List Char × List Char)) :
    ∀ x ∈ collect_token_spans text repls, x.1 < x.2.1 ∧ x.2.1 ≤ text.length := by
  intro x hx
  rw [collect_token_spans, (sortSpansDesc_perm _).mem_iff, spansOf_eq_flatMap,
    List.mem_flatMap] at hx
  obtain ⟨pv, hpv, hx⟩ := hx
  by_cases hph : pv.1 = []
  · rw [if_pos hph] at hx
    simp at hx
  · rw [if_neg hph] at hx
    rw [List.mem_map] at hx
    obtain ⟨se, hse, rfl⟩ := hx
    obtain ⟨s1, s2⟩ := se
    have hm := collectOccsAux_mem text pv.1 _ 0 (s1, s2) hse
    have hocc := (occursAt_spec text pv.1 s1 hm.2.2).1
    have hlen : 0 < pv.1.length := List.length_pos.mpr hph
    dsimp only [] at hm hocc ⊢
    exact ⟨by omega, by omega⟩

theorem matchEndAt_le (text : List Char) (sfxs : List (List Char)) (i e : Nat)
    (h : matchEndAt text sfxs i = some e) : e ≤ text.length := by
  rw [matchEndAt] at h
  rcases hd : text.drop i with _ | ⟨c1, rest1⟩
  · rw [hd] at h
    exact Option.noConfusion h
  · rcases rest1 with _ | ⟨c2, rest2⟩
    · rw [hd] at h
      exact Option.noConfusion h
    · rw [hd] at h
      dsimp only [] at h
      split at h
      · split at h
        · rw [Option.some.injEq] at h
          rename_i hcond
          rw [Bool.and_eq_true, Bool.and_eq_true, beq_iff_eq] at hcond
          have htk := hcond.1.2
          have hlen2 : 2 ≤ ((rest2.drop (rest2.takeWhile nonBrace).length).take 2).length := by
            rw [htk]
            rfl
          rw [List.length_take, List.length_drop] at hlen2
          have hdl : (text.drop i).length = rest2.length + 2 := by
            rw [hd]
            rfl
          rw [List.length_drop] at hdl
          omega
        · exact Option.noConfusion h
      · exact Option.noConfusion h

theorem findMatchesAux_bounds (text : List Char) (sfxs : List (List Char)) :
    ∀ (n i : Nat) (x : Nat × Nat), x ∈ findMatchesAux text sfxs n i →
      x.1 < x.2 ∧ x.2 ≤ text.length := by
  intro n
  induction n with
  | zero => intro i x hx; simp [findMatchesAux] at hx
  | succ n ih =>
    intro i x hx
    rw [findMatchesAux] at hx
    by_cases hi : text.length ≤ i
    · rw [if_pos hi] at hx
      simp at hx
    · rw [if_neg hi] at hx
      rcases hf : matchEndAt text sfxs i with _ | e
      · rw [hf] at hx
        exact ih (i + 1) x hx
      · rw [hf, List.mem_cons] at hx
        rcases hx with rfl | hx
        · exact ⟨matchEndAt_progress text sfxs i e hf, matchEndAt_le text sfxs i e hf⟩
        · exact ih e x hx

/-- Every span the deletion-pass scanner produces satisfies
`start < end ≤ text.length`. -/
theorem findMatches_bounds (text : List Char) (sfxs : List (List Char)) :
    ∀ x ∈ findMatches text sfxs, x.1 < x.2 ∧ x.2 ≤ text.length :=
  fun x hx => findMatchesAux_bounds text sfxs text.length 0 x hx

end IOMaker
